import Mathlib

/-!
Verification of src/assign_matrix.py (HotCRP preference-matrix visualizer).

Shallow embedding: papers and reviewers are identified by naturals, the
in-memory dictionaries of the script become functions into Option, Python
floats become exact rationals/reals, `int()` becomes truncation toward zero,
and Python operations that can raise (ZeroDivisionError, KeyError) become
Option-valued definitions where None models the raised exception.
-/

/-- Paper identifiers (strings in the script, abstracted to naturals). -/
abbrev P := ℕ

/-- Reviewer identities (first+last name strings, abstracted to naturals). -/
abbrev R := ℕ

/-- Python integer truncation `int(q)` on an exact value: toward zero. -/
def truncQ (q : ℚ) : ℤ := if 0 ≤ q then ⌊q⌋ else ⌈q⌉

/-- Python true division `a / b`: raises ZeroDivisionError when `b = 0`,
modelled as `none`. -/
def divQ (a b : ℚ) : Option ℚ := if b = 0 then none else some (a / b)

/-- One record of the preferences CSV (`allprefs.csv`): paper id, reviewer
identity (`first+" "+last`), reviewer email, parsed topic score, the
`preference` field (`none` when the field is empty/falsy), and whether the
`conflict` field equals `"conflict"`.  Mirrors the fields read in the loader
loop, lines 177-200 of assign_matrix.py. -/
structure Row where
  paper : P
  name : R
  mail : ℕ
  topic : ℤ
  pref : Option ℤ
  conflict : Bool
deriving DecidableEq

/-- The raw score recorded by one loader iteration (lines 192-200):
start from `topic_score`, override with `preference` when non-empty,
force `-100` on conflict. -/
def rowScore (row : Row) : ℤ :=
  if row.conflict then -100 else
  match row.pref with
  | some v => v
  | none => row.topic

/-- The score-kind tag recorded by one loader iteration (lines 193-199):
start from 'T', override with 'P' when `preference` is non-empty,
override with 'C' on conflict. -/
def rowType (row : Row) : Char :=
  if row.conflict then 'C' else
  if row.pref.isSome then 'P' else 'T'

/-- The `prefs` / `prefs_type` dictionaries after processing all rows in
order: each row overwrites the `(paper, name)` cell with the score and tag
computed from that row alone (lines 192-200). -/
def loadPrefs (rows : List Row) : P → R → Option (ℤ × Char) :=
  rows.foldl
    (fun m row => fun p r =>
      if p = row.paper ∧ r = row.name then some (rowScore row, rowType row)
      else m p r)
    (fun _ _ => none)

/-- Projection of the loaded table to raw scores (the `prefs` dictionary). -/
def prefsOf (rows : List Row) (p : P) (r : R) : Option ℤ :=
  (loadPrefs rows p r).map Prod.fst

/-- The non-conflict raw scores of reviewer `r` visited by the min/max scan
(lines 223-230): entries present in `prefs[p]` with score strictly above
`-100`, in paper order. -/
def rScores (prefs : P → R → Option ℤ) (papersL : List P) (r : R) : List ℤ :=
  papersL.filterMap (fun p =>
    (prefs p r).bind (fun v => if -100 < v then some v else none))

/-- Adaptive per-reviewer scaling bounds (opt_scale mode, lines 219-232):
`min` and `max` both start at 0 and are pushed down/up by every
non-conflict score of the reviewer. -/
def adaptBounds (prefs : P → R → Option ℤ) (papersL : List P) (r : R) : ℤ × ℤ :=
  (rScores prefs papersL r).foldl
    (fun mm v => (if v < mm.1 then v else mm.1, if mm.2 < v then v else mm.2))
    (0, 0)

/-- Fixed scaling bounds (default mode, lines 234-236). -/
def fixedBounds : ℤ × ℤ := (-20, 20)

/-- Scaling of one raw score (line 243 with the clamps of lines 244-247):
`int(100*(v-min)/(max-min))`, then clamp to [0,100].  `none` models the
ZeroDivisionError raised when `max - min = 0`. -/
def scaleRaw (mn mx v : ℤ) : Option ℤ :=
  (divQ (100 * ((v : ℚ) - mn)) ((mx : ℚ) - mn)).map (fun q =>
    let w := truncQ q
    if 100 < w then 100 else if w < 0 then 0 else w)

/-- Result of the scaled-intensity computation for one cell. -/
inductive SVal where
  /-- No entry is stored in `prefs_scaled[p]` for this reviewer. -/
  | noEntry : SVal
  /-- The computation raised ZeroDivisionError. -/
  | fault : SVal
  /-- A stored scaled intensity. -/
  | val (w : ℤ) : SVal
deriving DecidableEq

/-- The `prefs_scaled` computation for one cell (lines 238-247): a value is
computed only when the pair has a raw entry strictly above `-100`. -/
def prefsScaled (prefs : P → R → Option ℤ) (bounds : R → ℤ × ℤ) (p : P) (r : R) : SVal :=
  match prefs p r with
  | some v =>
    if -100 < v then
      match scaleRaw (bounds r).1 (bounds r).2 v with
      | some w => .val w
      | none => .fault
    else .noEntry
  | none => .noEntry

/-- The claim's normalization formula, following the spec's words:
`round(100 * (raw - min) / (max - min))`, clamped to [0, 100]. -/
def scaleRawSpecRound (mn mx v : ℤ) : ℤ :=
  let w := round ((100 * ((v : ℚ) - mn)) / ((mx : ℚ) - mn))
  max 0 (min 100 w)

/-- The claim's adaptive bounds, following the spec's words: the observed
[min, max] of exactly the reviewer's non-conflict raw scores, `none` when
the reviewer issued no scores. -/
def observedBoundsSpec (prefs : P → R → Option ℤ) (papersL : List P) (r : R) :
    Option (ℤ × ℤ) :=
  match rScores prefs papersL r with
  | [] => none
  | v :: vs => some (vs.foldl min v, vs.foldl max v)

lemma clamp_eq (w : ℤ) :
    (if 100 < w then 100 else if w < 0 then 0 else w) = max 0 (min 100 w) := by
  rw [Int.min_def, Int.max_def]
  split_ifs <;> omega

lemma sub_cast_ne_zero {mn mx : ℤ} (h : mn < mx) : ((mx : ℚ) - mn) ≠ 0 := by
  rw [sub_ne_zero]
  exact_mod_cast h.ne'

lemma scaleRaw_eq_of_lt {mn mx : ℤ} (h : mn < mx) (v : ℤ) :
    scaleRaw mn mx v =
      some (max 0 (min 100 (truncQ ((100 * ((v : ℚ) - mn)) / ((mx : ℚ) - mn))))) := by
  rw [scaleRaw, divQ, if_neg (sub_cast_ne_zero h)]
  simp [clamp_eq]

lemma truncQ_of_nonneg {q : ℚ} (h : 0 ≤ q) : truncQ q = ⌊q⌋ := if_pos h

lemma scale_ratio_nonneg {mn mx v : ℤ} (h : mn < mx) (hv : mn ≤ v) :
    0 ≤ (100 * ((v : ℚ) - mn)) / ((mx : ℚ) - mn) := by
  apply div_nonneg
  · have : (mn : ℚ) ≤ v := by exact_mod_cast hv
    nlinarith
  · have : (mn : ℚ) < mx := by exact_mod_cast h
    linarith

lemma scale_ratio_le_100 {mn mx v : ℤ} (h : mn < mx) (hv : v ≤ mx) :
    (100 * ((v : ℚ) - mn)) / ((mx : ℚ) - mn) ≤ 100 := by
  have hd : (0 : ℚ) < (mx : ℚ) - mn := by
    have : (mn : ℚ) < mx := by exact_mod_cast h
    linarith
  rw [div_le_iff₀ hd]
  have : (v : ℚ) ≤ mx := by exact_mod_cast hv
  nlinarith

/-- Claim C3 (amended): for non-degenerate bounds `min < max` the stored
intensity is the clamped *truncation* `int(100*(raw-min)/(max-min))`
(floor, for `raw ≥ min`), not the rounding claimed by the spec; the
boundary facts hold: `raw = min ↦ 0`, `raw = max ↦ 100`, and any raw score
within the bounds yields the un-clamped floor value, which lies in
`[0, 100]`. -/
theorem C3_scaled_intensity_floor (mn mx v : ℤ) (h : mn < mx) :
    scaleRaw mn mx v =
      some (max 0 (min 100 (truncQ ((100 * ((v : ℚ) - mn)) / ((mx : ℚ) - mn))))) ∧
    (v = mn → scaleRaw mn mx v = some 0) ∧
    (v = mx → scaleRaw mn mx v = some 100) ∧
    (mn ≤ v → v ≤ mx →
      scaleRaw mn mx v = some ⌊(100 * ((v : ℚ) - mn)) / ((mx : ℚ) - mn)⌋ ∧
      0 ≤ ⌊(100 * ((v : ℚ) - mn)) / ((mx : ℚ) - mn)⌋ ∧
      ⌊(100 * ((v : ℚ) - mn)) / ((mx : ℚ) - mn)⌋ ≤ 100) := by
  refine ⟨scaleRaw_eq_of_lt h v, ?_, ?_, ?_⟩
  · rintro rfl
    rw [scaleRaw_eq_of_lt h]
    norm_num [truncQ]
  · rintro rfl
    rw [scaleRaw_eq_of_lt h]
    rw [mul_div_assoc, div_self (sub_cast_ne_zero h)]
    norm_num [truncQ]
  · intro hv1 hv2
    have hq0 := scale_ratio_nonneg h hv1
    have hq100 := scale_ratio_le_100 h hv2
    have hf0 : 0 ≤ ⌊(100 * ((v : ℚ) - mn)) / ((mx : ℚ) - mn)⌋ := Int.floor_nonneg.mpr hq0
    have hf100 : ⌊(100 * ((v : ℚ) - mn)) / ((mx : ℚ) - mn)⌋ ≤ 100 := by
      have := Int.floor_le_floor hq100
      simpa using this
    refine ⟨?_, hf0, hf100⟩
    rw [scaleRaw_eq_of_lt h, truncQ_of_nonneg hq0]
    congr 1
    omega

/-- Witness for C3 at `min = 0`, `max = 3`, `raw = 2`. -/
theorem C3_scaled_intensity_floor_witness :
    (0 : ℤ) < 3 ∧
    (scaleRaw 0 3 2 =
      some (max 0 (min 100 (truncQ ((100 * ((2 : ℚ) - (0 : ℤ))) / (((3 : ℤ) : ℚ) - (0 : ℤ)))))) ∧
    ((2 : ℤ) = 0 → scaleRaw 0 3 2 = some 0) ∧
    ((2 : ℤ) = 3 → scaleRaw 0 3 2 = some 100) ∧
    ((0 : ℤ) ≤ 2 → (2 : ℤ) ≤ 3 →
      scaleRaw 0 3 2 = some ⌊(100 * ((2 : ℚ) - (0 : ℤ))) / (((3 : ℤ) : ℚ) - (0 : ℤ))⌋ ∧
      0 ≤ ⌊(100 * ((2 : ℚ) - (0 : ℤ))) / (((3 : ℤ) : ℚ) - (0 : ℤ))⌋ ∧
      ⌊(100 * ((2 : ℚ) - (0 : ℤ))) / (((3 : ℤ) : ℚ) - (0 : ℤ))⌋ ≤ 100)) :=
  ⟨by decide, C3_scaled_intensity_floor 0 3 2 (by decide)⟩

/-- Counterexample to claim C3 as stated: with bounds `[0, 3]` and raw
score `2` the code stores `int(200/3) = 66`, while the spec's
`round(200/3)` is `67`. -/
theorem C3_counterexample :
    scaleRaw 0 3 2 = some 66 ∧ scaleRawSpecRound 0 3 2 = 67 ∧
    scaleRaw 0 3 2 ≠ some (scaleRawSpecRound 0 3 2) := by
  refine ⟨?_, ?_, ?_⟩ <;>
    norm_num [scaleRaw, scaleRawSpecRound, divQ, truncQ, round_eq]

lemma minmax_foldl_eq (l : List ℤ) :
    ∀ a b : ℤ,
      l.foldl (fun mm v => (if v < mm.1 then v else mm.1, if mm.2 < v then v else mm.2)) (a, b) =
        (l.foldl min a, l.foldl max b) := by
  induction l with
  | nil => intro a b; rfl
  | cons v t ih =>
    intro a b
    have hmin : (if v < a then v else a) = min a v := by
      rw [min_def]; split_ifs <;> omega
    have hmax : (if b < v then v else b) = max b v := by
      rw [max_def]; split_ifs <;> omega
    simp only [List.foldl_cons, ih, hmin, hmax]

lemma adaptBounds_eq (prefs : P → R → Option ℤ) (papersL : List P) (r : R) :
    adaptBounds prefs papersL r =
      ((rScores prefs papersL r).foldl min 0, (rScores prefs papersL r).foldl max 0) := by
  rw [adaptBounds, minmax_foldl_eq]

lemma foldl_min_le_init (l : List ℤ) : ∀ a : ℤ, l.foldl min a ≤ a := by
  induction l with
  | nil => intro a; exact le_refl a
  | cons v t ih => intro a; exact le_trans (ih (min a v)) (min_le_left a v)

lemma foldl_min_le_mem (l : List ℤ) : ∀ a x : ℤ, x ∈ l → l.foldl min a ≤ x := by
  induction l with
  | nil => intro a x hx; cases hx
  | cons v t ih =>
    intro a x hx
    rcases List.mem_cons.mp hx with rfl | hx
    · exact le_trans (foldl_min_le_init t (min a x)) (min_le_right a x)
    · exact ih (min a v) x hx

lemma init_le_foldl_max (l : List ℤ) : ∀ b : ℤ, b ≤ l.foldl max b := by
  induction l with
  | nil => intro b; exact le_refl b
  | cons v t ih => intro b; exact le_trans (le_max_left b v) (ih (max b v))

lemma mem_le_foldl_max (l : List ℤ) : ∀ b x : ℤ, x ∈ l → x ≤ l.foldl max b := by
  induction l with
  | nil => intro b x hx; cases hx
  | cons v t ih =>
    intro b x hx
    rcases List.mem_cons.mp hx with rfl | hx
    · exact le_trans (le_max_right b x) (init_le_foldl_max t (max b x))
    · exact ih (max b v) x hx

lemma foldl_min_mem (l : List ℤ) : ∀ a : ℤ, l.foldl min a ∈ a :: l := by
  induction l with
  | nil => intro a; exact List.mem_singleton.mpr rfl
  | cons v t ih =>
    intro a
    simp only [List.foldl_cons]
    rcases List.mem_cons.mp (ih (min a v)) with h | h
    · rw [h]
      rcases min_choice a v with h2 | h2 <;> rw [h2]
      · exact List.mem_cons_self a (v :: t)
      · exact List.mem_cons_of_mem a (List.mem_cons_self v t)
    · exact List.mem_cons_of_mem a (List.mem_cons_of_mem v h)

lemma foldl_max_mem (l : List ℤ) : ∀ b : ℤ, l.foldl max b ∈ b :: l := by
  induction l with
  | nil => intro b; exact List.mem_singleton.mpr rfl
  | cons v t ih =>
    intro b
    simp only [List.foldl_cons]
    rcases List.mem_cons.mp (ih (max b v)) with h | h
    · rw [h]
      rcases max_choice b v with h2 | h2 <;> rw [h2]
      · exact List.mem_cons_self b (v :: t)
      · exact List.mem_cons_of_mem b (List.mem_cons_self v t)
    · exact List.mem_cons_of_mem b (List.mem_cons_of_mem v h)

lemma mem_rScores {prefs : P → R → Option ℤ} {papersL : List P} {r : R} {v : ℤ} :
    v ∈ rScores prefs papersL r ↔ ∃ p ∈ papersL, prefs p r = some v ∧ -100 < v := by
  simp only [rScores, List.mem_filterMap, Option.bind_eq_some]
  constructor
  · rintro ⟨p, hp, w, hw, hite⟩
    by_cases h : -100 < w
    · rw [if_pos h] at hite
      obtain rfl := Option.some_injective _ hite
      exact ⟨p, hp, hw, h⟩
    · rw [if_neg h] at hite
      cases hite
  · rintro ⟨p, hp, hw, h⟩
    exact ⟨p, hp, v, hw, by rw [if_pos h]⟩

lemma scaleRaw_none_iff {mn mx v : ℤ} : scaleRaw mn mx v = none ↔ mn = mx := by
  rw [scaleRaw, divQ]
  constructor
  · intro h
    by_cases hz : ((mx : ℚ) - mn) = 0
    · have : (mn : ℚ) = mx := by linarith [sub_eq_zero.mp hz]
      exact_mod_cast this
    · rw [if_neg hz] at h
      simp at h
  · rintro rfl
    simp

/-- Claim C4 (amended): whenever the scaling bounds are non-degenerate
(`min < max`) the scaled intensity is defined and clamped into `[0, 100]`
with no arithmetic fault; but with degenerate bounds (`min = max`) the
computation of `prefs_scaled` raises ZeroDivisionError exactly when the
pair has a non-conflict raw entry, so degenerate scaling IS fatal in that
case (the code divides by zero, contrary to the claim). -/
theorem C4_degenerate_scaling (prefs : P → R → Option ℤ) (bounds : R → ℤ × ℤ)
    (p : P) (r : R) :
    (∀ mn mx v : ℤ, mn < mx → ∃ w, scaleRaw mn mx v = some w ∧ 0 ≤ w ∧ w ≤ 100) ∧
    (prefsScaled prefs bounds p r = .fault ↔
      (bounds r).1 = (bounds r).2 ∧ ∃ v, prefs p r = some v ∧ -100 < v) := by
  constructor
  · intro mn mx v h
    refine ⟨_, scaleRaw_eq_of_lt h v, le_max_left 0 _, ?_⟩
    exact max_le (by norm_num) (min_le_left 100 _)
  · cases hpr : prefs p r with
    | none => simp [prefsScaled, hpr]
    | some v =>
      by_cases hv : -100 < v
      · cases hsr : scaleRaw (bounds r).1 (bounds r).2 v with
        | none =>
          have hb := scaleRaw_none_iff.mp hsr
          have h2 : scaleRaw (bounds r).2 (bounds r).2 v = none := scaleRaw_none_iff.mpr rfl
          simp [prefsScaled, hpr, hv, hb, h2]
        | some w =>
          have hb : ¬ (bounds r).1 = (bounds r).2 := by
            intro he
            rw [scaleRaw_none_iff.mpr he] at hsr
            cases hsr
          simp [prefsScaled, hpr, hv, hsr, hb]
      · simp [prefsScaled, hpr, hv]

/-- Concrete preference table for the C4 counterexample: a single reviewer
whose only (non-conflict) raw score is 0. -/
def prefs4 : P → R → Option ℤ := fun p r => if p = 0 ∧ r = 0 then some 0 else none

/-- Counterexample to claim C4 as stated: in adaptive mode a reviewer whose
only non-conflict score is `0` gets the degenerate bounds `(0, 0)`, and
computing the scaled intensity of that score divides by zero — an
arithmetic fault, fatal to the run. -/
theorem C4_counterexample :
    adaptBounds prefs4 [0] 0 = (0, 0) ∧
    prefsScaled prefs4 (fun r => adaptBounds prefs4 [0] r) 0 0 = .fault := by
  constructor
  · decide
  · have h1 : prefs4 0 0 = some 0 := by decide
    have h2 : adaptBounds prefs4 [0] 0 = (0, 0) := by decide
    rw [prefsScaled, h1]
    norm_num [h2, scaleRaw_none_iff.mpr rfl]

/-- Witness for C4 at bounds `0 < 3`, raw score 2, and the concrete
degenerate table `prefs4`. -/
theorem C4_degenerate_scaling_witness :
    ((0 : ℤ) < 3 ∧ ∃ w, scaleRaw 0 3 2 = some w ∧ 0 ≤ w ∧ w ≤ 100) ∧
    (prefsScaled prefs4 (fun r => adaptBounds prefs4 [0] r) 0 0 = .fault ↔
      ((fun r => adaptBounds prefs4 [0] r) 0).1 = ((fun r => adaptBounds prefs4 [0] r) 0).2 ∧
      ∃ v, prefs4 0 0 = some v ∧ -100 < v) :=
  ⟨⟨by decide,
    (C4_degenerate_scaling prefs4 (fun r => adaptBounds prefs4 [0] r) 0 0).1 0 3 2 (by decide)⟩,
   (C4_degenerate_scaling prefs4 (fun r => adaptBounds prefs4 [0] r) 0 0).2⟩

/-- Claim C5 (amended): in adaptive mode a reviewer's scaling range is the
observed range of their non-conflict raw scores *widened to include 0*
(both min and max start at 0), not the observed `[min, max]` itself:
the bounds are the fold of `min`/`max` seeded with 0, they enclose every
non-conflict score, satisfy `min ≤ 0 ≤ max`, and each bound is either 0 or
an observed score.  Conflict-sentinel scores are excluded, and a reviewer
with no non-conflict scores gets the degenerate range `(0, 0)`, for which
the scaler never attempts a scaled entry (so no fault arises in the run). -/
theorem C5_adaptive_bounds (prefs : P → R → Option ℤ) (papersL : List P) (r : R) :
    adaptBounds prefs papersL r =
      ((rScores prefs papersL r).foldl min 0, (rScores prefs papersL r).foldl max 0) ∧
    (∀ v ∈ rScores prefs papersL r,
      (adaptBounds prefs papersL r).1 ≤ v ∧ v ≤ (adaptBounds prefs papersL r).2) ∧
    (adaptBounds prefs papersL r).1 ≤ 0 ∧ 0 ≤ (adaptBounds prefs papersL r).2 ∧
    (adaptBounds prefs papersL r).1 ∈ 0 :: rScores prefs papersL r ∧
    (adaptBounds prefs papersL r).2 ∈ 0 :: rScores prefs papersL r ∧
    (∀ v : ℤ, v ∈ rScores prefs papersL r ↔ ∃ p ∈ papersL, prefs p r = some v ∧ -100 < v) ∧
    (rScores prefs papersL r = [] →
      adaptBounds prefs papersL r = (0, 0) ∧
      ∀ p ∈ papersL, prefsScaled prefs (fun x => adaptBounds prefs papersL x) p r = .noEntry) := by
  rw [adaptBounds_eq]
  refine ⟨rfl, ?_, foldl_min_le_init _ 0, init_le_foldl_max _ 0,
    foldl_min_mem _ 0, foldl_max_mem _ 0, fun v => mem_rScores, ?_⟩
  · intro v hv
    exact ⟨foldl_min_le_mem _ 0 v hv, mem_le_foldl_max _ 0 v hv⟩
  · intro hemp
    rw [hemp]
    refine ⟨rfl, ?_⟩
    intro p hp
    cases hpr : prefs p r with
    | none => simp [prefsScaled, hpr]
    | some v =>
      have hv : ¬ -100 < v := by
        intro hv
        have : v ∈ rScores prefs papersL r := mem_rScores.mpr ⟨p, hp, hpr, hv⟩
        rw [hemp] at this
        cases this
      simp [prefsScaled, hpr, hv]

/-- Concrete preference table for the C5 counterexample: one reviewer with
the two positive raw scores 5 and 10. -/
def prefs5 : P → R → Option ℤ := fun p r =>
  if r = 0 ∧ p = 0 then some 5 else if r = 0 ∧ p = 1 then some 10 else none

/-- Counterexample to claim C5 as stated: for a reviewer whose observed
non-conflict scores are 5 and 10, the code's adaptive range is `(0, 10)`
(min is seeded at 0), while the observed range of the claim is `(5, 10)`. -/
theorem C5_counterexample :
    adaptBounds prefs5 [0, 1] 0 = (0, 10) ∧
    observedBoundsSpec prefs5 [0, 1] 0 = some (5, 10) ∧
    ((0 : ℤ), (10 : ℤ)) ≠ ((5 : ℤ), (10 : ℤ)) := by
  refine ⟨by decide, by decide, by decide⟩

/-- Witness for C5 at the concrete table `prefs5`. -/
theorem C5_adaptive_bounds_witness :
    adaptBounds prefs5 [0, 1] 0 =
      ((rScores prefs5 [0, 1] 0).foldl min 0, (rScores prefs5 [0, 1] 0).foldl max 0) ∧
    (∀ v ∈ rScores prefs5 [0, 1] 0,
      (adaptBounds prefs5 [0, 1] 0).1 ≤ v ∧ v ≤ (adaptBounds prefs5 [0, 1] 0).2) ∧
    (adaptBounds prefs5 [0, 1] 0).1 ≤ 0 ∧ 0 ≤ (adaptBounds prefs5 [0, 1] 0).2 ∧
    (adaptBounds prefs5 [0, 1] 0).1 ∈ 0 :: rScores prefs5 [0, 1] 0 ∧
    (adaptBounds prefs5 [0, 1] 0).2 ∈ 0 :: rScores prefs5 [0, 1] 0 ∧
    (∀ v : ℤ, v ∈ rScores prefs5 [0, 1] 0 ↔ ∃ p ∈ [0, 1], prefs5 p 0 = some v ∧ -100 < v) ∧
    (rScores prefs5 [0, 1] 0 = [] →
      adaptBounds prefs5 [0, 1] 0 = (0, 0) ∧
      ∀ p ∈ [0, 1], prefsScaled prefs5 (fun x => adaptBounds prefs5 [0, 1] x) p 0 = .noEntry) :=
  C5_adaptive_bounds prefs5 [0, 1] 0

lemma loadPrefs_append (rows : List Row) (row : Row) :
    loadPrefs (rows ++ [row]) = fun p r =>
      if p = row.paper ∧ r = row.name then some (rowScore row, rowType row)
      else loadPrefs rows p r := by
  simp [loadPrefs, List.foldl_append]

lemma loadPrefs_provenance (rows : List Row) :
    ∀ (p : P) (r : R) (x : ℤ × Char), loadPrefs rows p r = some x →
      ∃ rw ∈ rows, rw.paper = p ∧ rw.name = r ∧ x = (rowScore rw, rowType rw) := by
  induction rows using List.reverseRecOn with
  | nil => intro p r x h; cases h
  | append_singleton rows row ih =>
    intro p r x h
    simp only [loadPrefs_append] at h
    by_cases hc : p = row.paper ∧ r = row.name
    · rw [if_pos hc] at h
      obtain rfl := Option.some_injective _ h
      exact ⟨row, List.mem_append_right rows (List.mem_singleton.mpr rfl),
        hc.1.symm, hc.2.symm, rfl⟩
    · rw [if_neg hc] at h
      obtain ⟨rw, hrw, h1, h2, h3⟩ := ih p r x h
      exact ⟨rw, List.mem_append_left _ hrw, h1, h2, h3⟩

/-- Claim C6 (amended): the precedence conflict > explicit preference >
topic affinity holds only *within a single CSV row* (each row recomputes
the cell from its own three fields, and a conflict row forces the raw
score to -100); across several rows contributing to the same (paper,
reviewer) pair, the last row processed wins outright, so a later
non-conflict row erases an earlier conflict tag.  Whenever the final
recorded tag is 'C', the recorded raw score is -100. -/
theorem C6_row_precedence (rows : List Row) (row : Row) (p : P) (r : R) :
    (row.conflict = true → rowType row = 'C' ∧ rowScore row = -100) ∧
    (row.conflict = false → ∀ v, row.pref = some v → rowType row = 'P' ∧ rowScore row = v) ∧
    (row.conflict = false → row.pref = none → rowType row = 'T' ∧ rowScore row = row.topic) ∧
    loadPrefs (rows ++ [row]) row.paper row.name = some (rowScore row, rowType row) ∧
    (¬(p = row.paper ∧ r = row.name) → loadPrefs (rows ++ [row]) p r = loadPrefs rows p r) ∧
    (∀ s ty, loadPrefs rows p r = some (s, ty) → ty = 'C' → s = -100) ∧
    (∀ s ty, loadPrefs rows p r = some (s, ty) →
      ∃ rw ∈ rows, rw.paper = p ∧ rw.name = r ∧ s = rowScore rw ∧ ty = rowType rw) := by
  refine ⟨?_, ?_, ?_, ?_, ?_, ?_, ?_⟩
  · intro hc
    exact ⟨by simp [rowType, hc], by simp [rowScore, hc]⟩
  · intro hc v hp
    exact ⟨by simp [rowType, hc, hp], by simp [rowScore, hc, hp]⟩
  · intro hc hp
    exact ⟨by simp [rowType, hc, hp], by simp [rowScore, hc, hp]⟩
  · simp only [loadPrefs_append]
    simp
  · intro hne
    simp only [loadPrefs_append]
    rw [if_neg hne]
  · intro s ty h hty
    obtain ⟨rw, _, _, _, hx⟩ := loadPrefs_provenance rows p r (s, ty) h
    have hs : s = rowScore rw := congrArg Prod.fst hx
    have ht : ty = rowType rw := congrArg Prod.snd hx
    by_cases hc : rw.conflict
    · rw [hs]
      simp [rowScore, hc]
    · exfalso
      rw [hty] at ht
      rw [rowType, if_neg (by simp [hc])] at ht
      split_ifs at ht <;> exact absurd ht (by decide)
  · intro s ty h
    obtain ⟨rw, hrw, h1, h2, h3⟩ := loadPrefs_provenance rows p r (s, ty) h
    exact ⟨rw, hrw, h1, h2, congrArg Prod.fst h3, congrArg Prod.snd h3⟩

/-- Concrete row list for the C6 counterexample: a conflict row for pair
(paper 0, reviewer 0) followed by a topic-only row for the same pair. -/
def rowsC6 : List Row := [⟨0, 0, 0, 5, none, true⟩, ⟨0, 0, 0, 5, none, false⟩]

/-- Counterexample to claim C6 as stated: a conflict row followed by a
topic-affinity row for the same pair leaves the pair tagged 'T' with raw
score 5 — the conflict does NOT override when it arrives in an earlier
row, because each row overwrites the cell completely. -/
theorem C6_counterexample :
    loadPrefs rowsC6 0 0 = some (5, 'T') ∧
    some ((5 : ℤ), 'T') ≠ some ((-100 : ℤ), 'C') :=
  ⟨by decide, by decide⟩

/-- Concrete conflict row used by the C6 witness. -/
def row6 : Row := ⟨0, 0, 0, 5, none, true⟩

/-- Witness for C6 at the concrete row `row6`. -/
theorem C6_row_precedence_witness :
    (row6.conflict = true ∧ rowType row6 = 'C' ∧ rowScore row6 = -100) ∧
    loadPrefs ([] ++ [row6]) row6.paper row6.name = some (rowScore row6, rowType row6) ∧
    (¬((1 : P) = row6.paper ∧ (0 : R) = row6.name) ∧
      loadPrefs ([] ++ [row6]) 1 0 = loadPrefs [] 1 0) :=
  ⟨⟨by decide, (C6_row_precedence [] row6 1 0).1 (by decide)⟩,
   (C6_row_precedence [] row6 1 0).2.2.2.1,
   ⟨by decide, (C6_row_precedence [] row6 1 0).2.2.2.2.1 (by decide)⟩⟩

/-- The `conv` escape table of `latex_encode` (lines 76-89), as a partial
map from each reserved character to its replacement.  Every key of the
table is a single character. -/
def latexConv (c : Char) : Option (List Char) :=
  if c = '&' then some ['\\', '&']
  else if c = '%' then some ['\\', '%']
  else if c = '$' then some ['\\', '$']
  else if c = '#' then some ['\\', '#']
  else if c = '_' then some ['\\', '_']
  else if c = '\x7b' then some ['\\', '\x7b']
  else if c = '\x7d' then some ['\\', '\x7d']
  else if c = '~' then some ("\\textasciitilde\x7b\x7d".toList)
  else if c = '^' then some ("\\^\x7b\x7d".toList)
  else if c = '\\' then some ("\\textbackslash\x7b\x7d".toList)
  else if c = '<' then some ("\\textless\x7b\x7d".toList)
  else if c = '>' then some ("\\textgreater\x7b\x7d".toList)
  else none

/-- The `latex_encode` helper (lines 71-91).  The compiled regex is an
alternation of the (escaped) table keys and `re.sub` rewrites each
non-overlapping occurrence left to right; since every key is a single
character, this is exactly a character-by-character substitution. -/
def latexEncode (s : List Char) : List Char :=
  s.flatMap (fun c => (latexConv c).getD [c])

/-- Claim C8 (amended): `latex_encode` maps each reserved character to its
escape sequence and is the identity on text with no reserved characters
(all table keys are single characters, so longest-match ordering is
trivial); but it does NOT avoid double-escaping: the backslash is itself a
reserved character, so encoding already-escaped text escapes it again and
the function is not idempotent. -/
theorem C8_latex_encode (s : List Char) :
    (∀ c esc, latexConv c = some esc → latexEncode [c] = esc) ∧
    ((∀ c ∈ s, latexConv c = none) → latexEncode s = s) ∧
    latexEncode (latexEncode ['&']) ≠ latexEncode ['&'] := by
  refine ⟨?_, ?_, by decide⟩
  · intro c esc h
    simp [latexEncode, h]
  · intro h
    induction s with
    | nil => rfl
    | cons c t ih =>
      have hc := h c (List.mem_cons_self c t)
      have ht := ih (fun x hx => h x (List.mem_cons_of_mem c hx))
      simp [latexEncode, hc] at ht ⊢
      exact ht

/-- Counterexample to claim C8 as stated: the already-escaped input
consisting of a backslash followed by an ampersand is re-escaped — the
backslash becomes its own escape sequence — so escaped input is
double-escaped. -/
theorem C8_counterexample :
    latexEncode ['\\', '&'] = "\\textbackslash\x7b\x7d\\&".toList ∧
    latexEncode ['\\', '&'] ≠ ['\\', '&'] :=
  ⟨by decide, by decide⟩

/-- Witness for C8 on the reserved character ampersand and the clean text
consisting of the single letter A. -/
theorem C8_latex_encode_witness :
    (latexConv '&' = some ['\\', '&'] ∧ latexEncode ['&'] = ['\\', '&']) ∧
    ((∀ c ∈ ['A'], latexConv c = none) ∧ latexEncode ['A'] = ['A']) :=
  ⟨⟨by decide, (C8_latex_encode ['A']).1 '&' ['\\', '&'] (by decide)⟩,
   ⟨by decide, (C8_latex_encode ['A']).2.1 (by decide)⟩⟩

/-- The content of one rendered cell: the rate-macro family ('P' or 'T'),
whether the assignment suffix "A" is present, the shading argument, and
the printed label. -/
structure Cell where
  style : Char
  markA : Bool
  shade : ℤ
  label : String
deriving DecidableEq

/-- The `pretty` helper (lines 314-322), producing the cell for paper `p`
and reviewer `name`: unknown entries render as `?` at shade 50;
conflict-tagged entries as `C` at shade -100; entries with raw score -100
as label `-100` at shade -100; all others with the type-styled macro, the
scaled intensity as shade, and the tag plus the raw score as label.
`none` models the KeyError raised when the final branch needs a scaled
entry that was never computed. -/
def pretty (pm : P → R → Option (ℤ × Char)) (sp : P → R → Option ℤ)
    (asg : P → R → Bool) (p : P) (r : R) : Option Cell :=
  let a := asg p r
  match pm p r with
  | none => some ⟨'P', a, 50, "?"⟩
  | some (v, ty) =>
    if ty = 'C' then some ⟨'P', a, -100, "C"⟩
    else if v = -100 then some ⟨'P', a, -100, "-100"⟩
    else
      match sp p r with
      | some w => some ⟨ty, a, w, String.mk (ty :: (toString v).toList)⟩
      | none => none

/-- Removing one cell from a raw-score table. -/
def eraseAt (prefs : P → R → Option ℤ) (p : P) (r : R) : P → R → Option ℤ :=
  fun p0 r0 => if p0 = p ∧ r0 = r then none else prefs p0 r0

lemma rScores_eraseAt_of_conflictish {prefs : P → R → Option ℤ} {p : P} {r : R} {v : ℤ}
    (hv : prefs p r = some v) (hle : v ≤ -100) (papersL : List P) :
    rScores prefs papersL r = rScores (eraseAt prefs p r) papersL r := by
  apply List.filterMap_congr
  intro p0 _
  by_cases hp : p0 = p
  · subst hp
    rw [hv, eraseAt, if_pos ⟨rfl, rfl⟩]
    simp [show ¬ -100 < v by omega]
  · rw [eraseAt, if_neg (fun hc => hp hc.1)]

/-- Claim C10 (confirmed): a pair whose recorded raw score is -100 but
whose tag is not 'C' is excluded from adaptive bound computation (erasing
the entry leaves the bounds unchanged), gets no scaled intensity, and
renders at the extreme-negative shade -100 with its raw value `-100` as
label; the conflict marker `C` is rendered exactly for conflict-tagged
pairs. -/
theorem C10_nonconflict_minus100 (pm : P → R → Option (ℤ × Char))
    (sp : P → R → Option ℤ) (asg : P → R → Bool) (p : P) (r : R) (ty : Char)
    (hpm : pm p r = some (-100, ty)) (hty : ty ≠ 'C') :
    (∀ papersL : List P,
      adaptBounds (fun p0 r0 => (pm p0 r0).map Prod.fst) papersL r =
        adaptBounds (eraseAt (fun p0 r0 => (pm p0 r0).map Prod.fst) p r) papersL r) ∧
    (∀ bounds : R → ℤ × ℤ,
      prefsScaled (fun p0 r0 => (pm p0 r0).map Prod.fst) bounds p r = .noEntry) ∧
    pretty pm sp asg p r = some ⟨'P', asg p r, -100, "-100"⟩ ∧
    (∀ (p0 : P) (r0 : R) (v0 : ℤ), pm p0 r0 = some (v0, 'C') →
      pretty pm sp asg p0 r0 = some ⟨'P', asg p0 r0, -100, "C"⟩) ∧
    (∀ (p0 : P) (r0 : R) (cell : Cell), pretty pm sp asg p0 r0 = some cell →
      cell.label = "C" → ∃ v0, pm p0 r0 = some (v0, 'C')) := by
  have hpr : (fun p0 r0 => (pm p0 r0).map Prod.fst) p r = some (-100) := by
    simp only [hpm]
    rfl
  refine ⟨?_, ?_, ?_, ?_, ?_⟩
  · intro papersL
    rw [adaptBounds, adaptBounds,
      rScores_eraseAt_of_conflictish hpr (le_refl (-100)) papersL]
  · intro bounds
    simp [prefsScaled, hpr]
  · simp [pretty, hpm, hty]
  · intro p0 r0 v0 h0
    simp [pretty, h0]
  · intro p0 r0 cell h0 hlab
    cases hv : pm p0 r0 with
    | none =>
      simp only [pretty, hv] at h0
      obtain rfl := Option.some_injective _ h0
      have h9 : "?" = "C" := hlab
      exact absurd h9 (by decide)
    | some vt =>
      obtain ⟨v1, ty1⟩ := vt
      by_cases hc : ty1 = 'C'
      · subst hc
        exact ⟨v1, rfl⟩
      · exfalso
        simp only [pretty, hv] at h0
        rw [if_neg hc] at h0
        by_cases h100 : v1 = -100
        · rw [if_pos h100] at h0
          obtain rfl := Option.some_injective _ h0
          have h9 : "-100" = "C" := hlab
          exact absurd h9 (by decide)
        · rw [if_neg h100] at h0
          cases hsp : sp p0 r0 with
          | none => simp only [hsp] at h0; cases h0
          | some w =>
            simp only [hsp] at h0
            obtain rfl := Option.some_injective _ h0
            have h2 : (ty1 :: (toString v1).toList) = ['C'] :=
              congrArg String.data hlab
            exact hc (List.head_eq_of_cons_eq h2)

/-- Concrete table for the C10 witness: pair (0,0) holds an explicit
preference of -100, pair (1,0) a conflict. -/
def pm10 : P → R → Option (ℤ × Char) := fun p r =>
  if p = 0 ∧ r = 0 then some (-100, 'P') else if p = 1 ∧ r = 0 then some (3, 'C') else none

/-- Witness for C10 at the concrete table `pm10`. -/
theorem C10_nonconflict_minus100_witness :
    (pm10 0 0 = some (-100, 'P') ∧ ('P' : Char) ≠ 'C') ∧
    ((∀ papersL : List P,
      adaptBounds (fun p0 r0 => (pm10 p0 r0).map Prod.fst) papersL 0 =
        adaptBounds (eraseAt (fun p0 r0 => (pm10 p0 r0).map Prod.fst) 0 0) papersL 0) ∧
    (∀ bounds : R → ℤ × ℤ,
      prefsScaled (fun p0 r0 => (pm10 p0 r0).map Prod.fst) bounds 0 0 = .noEntry) ∧
    pretty pm10 (fun _ _ => none) (fun _ _ => false) 0 0 =
      some ⟨'P', false, -100, "-100"⟩ ∧
    (∀ (p0 : P) (r0 : R) (v0 : ℤ), pm10 p0 r0 = some (v0, 'C') →
      pretty pm10 (fun _ _ => none) (fun _ _ => false) p0 r0 =
        some ⟨'P', false, -100, "C"⟩) ∧
    (∀ (p0 : P) (r0 : R) (cell : Cell),
      pretty pm10 (fun _ _ => none) (fun _ _ => false) p0 r0 = some cell →
      cell.label = "C" → ∃ v0, pm10 p0 r0 = some (v0, 'C'))) :=
  ⟨⟨by decide, by decide⟩,
   C10_nonconflict_minus100 pm10 (fun _ _ => none) (fun _ _ => false) 0 0 'P'
     (by decide) (by decide)⟩

/-- One record of the assignment CSV (`pcassignment.csv`): the action kind,
the reviewer email, the paper id (lines 211-216). -/
structure ARow where
  action : String
  mail : ℕ
  paper : P
deriving DecidableEq

/-- Building the `email` → reviewer-name map during preference loading
(lines 186-190): an email is recorded only when the reviewer name is seen
for the first time. -/
def loadEmailAux : List Row → List R → (ℕ → Option R) → (ℕ → Option R)
  | [], _, em => em
  | row :: t, seen, em =>
    if row.name ∈ seen then loadEmailAux t seen em
    else loadEmailAux t (row.name :: seen)
      (fun e => if e = row.mail then some row.name else em e)

/-- The `email` dictionary after processing the whole preference table. -/
def loadEmail (rows : List Row) : ℕ → Option R :=
  loadEmailAux rows [] (fun _ => none)

/-- Processing the assignment table (lines 211-216): rows whose action is
`"primary"` are resolved through the email map; `none` models the KeyError
raised by `email[line['email']]` on an unknown email.  Non-primary rows
are skipped without a lookup. -/
def processAssign (em : ℕ → Option R) : List ARow → Option (List (P × R))
  | [] => some []
  | a :: t =>
    if a.action = "primary" then
      match em a.mail with
      | some name => (processAssign em t).map (fun rest => (a.paper, name) :: rest)
      | none => none
    else processAssign em t

/-- The pieces of the output document, in emission order: the script
prints the LaTeX header (lines 96-164) before reading any input file,
then after all processing prints the reviewer header row, one row per
paper, and the footer. -/
inductive Chunk where
  | header : Chunk
  | pcList : Chunk
  | paperRow (p : P) : Chunk
  | footer : Chunk
deriving DecidableEq

/-- Paper ids in first-occurrence order (the `papers` dict insertion
order). -/
def papersList (rows : List Row) : List P :=
  rows.foldl (fun acc row => if row.paper ∈ acc then acc else acc ++ [row.paper]) []

/-- The whole run at the granularity of emitted output chunks: the header
is printed unconditionally first; if processing the assignment table
raises a KeyError the run dies there (second component `true`), with the
header already written to stdout; otherwise the full document is
emitted. -/
def runProgram (rows : List Row) (ars : Option (List ARow)) : List Chunk × Bool :=
  match ars with
  | some l =>
    match processAssign (loadEmail rows) l with
    | none => ([Chunk.header], true)
    | some _ =>
      (Chunk.header :: Chunk.pcList :: (papersList rows).map Chunk.paperRow ++
        [Chunk.footer], false)
  | none =>
    (Chunk.header :: Chunk.pcList :: (papersList rows).map Chunk.paperRow ++
      [Chunk.footer], false)

lemma processAssign_none_iff (em : ℕ → Option R) (l : List ARow) :
    processAssign em l = none ↔
      ∃ a ∈ l, a.action = "primary" ∧ em a.mail = none := by
  induction l with
  | nil => simp [processAssign]
  | cons a t ih =>
    by_cases hact : a.action = "primary"
    · cases hm : em a.mail with
      | none => simp [processAssign, hact, hm, List.exists_mem_cons_iff]
      | some name => simp [processAssign, hact, hm, ih, List.exists_mem_cons_iff]
    · simp [processAssign, hact, ih, List.exists_mem_cons_iff]

/-- Claim C9 (amended): an assignment table containing a primary-action
row whose email is absent from the email map makes the run abort with the
lookup error (no silent skip: the run aborts iff such a primary row
exists; non-primary rows never trigger a lookup), and the output at that
point is exactly the document header — which HAS already been emitted, so
a partial output document IS produced, contrary to the claim's last
part. -/
theorem C9_unknown_email_aborts (rows : List Row) (l : List ARow)
    (h : ∃ a ∈ l, a.action = "primary" ∧ loadEmail rows a.mail = none) :
    runProgram rows (some l) = ([Chunk.header], true) ∧
    (runProgram rows (some l)).1 ≠ [] := by
  have hp : processAssign (loadEmail rows) l = none :=
    (processAssign_none_iff (loadEmail rows) l).mpr h
  rw [runProgram, hp]
  exact ⟨rfl, by simp⟩

/-- Concrete data for C9: one preference row recording email 7, and one
primary assignment row referencing the unknown email 8. -/
def rows9 : List Row := [⟨0, 0, 7, 5, none, false⟩]

/-- Assignment table with an unknown email for the C9 counterexample. -/
def ars9 : List ARow := [⟨"primary", 8, 0⟩]

/-- Counterexample to claim C9 as stated: the run aborts on the unknown
email, but the emitted output is the (nonempty) document header, not
nothing — partial output was already written before the lookup failed. -/
theorem C9_counterexample :
    runProgram rows9 (some ars9) = ([Chunk.header], true) ∧
    ([Chunk.header] : List Chunk) ≠ [] :=
  ⟨by decide, by decide⟩

/-- Witness for C9 at the concrete tables `rows9`, `ars9`. -/
theorem C9_unknown_email_aborts_witness :
    (∃ a ∈ ars9, a.action = "primary" ∧ loadEmail rows9 a.mail = none) ∧
    runProgram rows9 (some ars9) = ([Chunk.header], true) ∧
    (runProgram rows9 (some ars9)).1 ≠ [] :=
  ⟨⟨⟨"primary", 8, 0⟩, by decide, by decide, by decide⟩,
   C9_unknown_email_aborts rows9 ars9 ⟨⟨"primary", 8, 0⟩, by decide, by decide, by decide⟩⟩

/-- Numerator of a reviewer's affinity (lines 287-291): the sum of
`scaled * position` over the final paper order. -/
def affS (sp : P → R → Option ℤ) (order : List P) (r : R) : ℤ :=
  (order.enum.map (fun ip =>
    match sp ip.2 r with
    | some w => w * (ip.1 : ℤ)
    | none => 0)).sum

/-- Denominator of a reviewer's affinity: the sum of the scaled
intensities themselves. -/
def affT (sp : P → R → Option ℤ) (order : List P) (r : R) : ℤ :=
  (order.enum.map (fun ip =>
    match sp ip.2 r with
    | some w => w
    | none => 0)).sum

/-- The `affinity` function (lines 285-295): the intensity-weighted mean
position when the intensity sum is positive, else the sentinel -1. -/
def affinity (sp : P → R → Option ℤ) (order : List P) (r : R) : ℚ :=
  if 0 < affT sp order r then (affS sp order r : ℚ) / (affT sp order r : ℚ) else -1

/-- The comparator of the reviewer sort `sorted(pc, key=affinity)`. -/
def affLE (sp : P → R → Option ℤ) (order : List P) (a b : R) : Bool :=
  decide (affinity sp order a ≤ affinity sp order b)

/-- The reviewer order (line 296): Python `sorted` is an ascending stable
sort by the affinity key, modelled by a stable merge sort. -/
def sortedPC (sp : P → R → Option ℤ) (order : List P) (pcL : List R) : List R :=
  pcL.mergeSort (affLE sp order)

/-- The claim's affinity, following the spec's words: the weighted average
over papers where the reviewer has a scaled entry, with the sentinel
reserved for reviewers having NO scaled entry. -/
def affinitySpecC7 (sp : P → R → Option ℤ) (order : List P) (r : R) : ℚ :=
  if order.any (fun p => (sp p r).isSome) then
    (affS sp order r : ℚ) / (affT sp order r : ℚ)
  else -1

lemma affLE_trans (sp : P → R → Option ℤ) (order : List P) :
    ∀ a b c, affLE sp order a b → affLE sp order b c → affLE sp order a c := by
  intro a b c hab hbc
  simp only [affLE, decide_eq_true_eq] at hab hbc ⊢
  exact le_trans hab hbc

lemma affLE_total (sp : P → R → Option ℤ) (order : List P) :
    ∀ a b, affLE sp order a b || affLE sp order b a := by
  intro a b
  simp only [affLE, Bool.or_eq_true, decide_eq_true_eq]
  exact le_total _ _

lemma affS_nonneg {sp : P → R → Option ℤ} {order : List P} {r : R}
    (h : ∀ p ∈ order, ∀ w, sp p r = some w → 0 ≤ w) : 0 ≤ affS sp order r := by
  apply List.sum_nonneg
  intro x hx
  obtain ⟨ip, hip, rfl⟩ := List.mem_map.mp hx
  have hmem : ip.2 ∈ order :=
    List.getElem?_mem (List.mem_enum_iff_getElem?.mp hip)
  cases hsp : sp ip.2 r with
  | none => simp
  | some w =>
    simp only
    exact mul_nonneg (h ip.2 hmem w hsp) (Int.ofNat_nonneg ip.1)

/-- Claim C7 (amended): a reviewer's affinity is
`sum(intensity*position) / sum(intensity)` whenever the intensity sum is
positive, and the sentinel -1 otherwise — so the sentinel is used not only
for reviewers with no scaled entries but also for reviewers all of whose
scaled intensities are 0; with nonnegative intensities the sentinel sorts
strictly below every computed affinity; and the reviewer order is an
ascending stable sort by affinity (equal keys keep their original relative
order). -/
theorem C7_reviewer_affinity (sp : P → R → Option ℤ) (order : List P)
    (pcL : List R) (r : R) :
    (0 < affT sp order r →
      affinity sp order r = (affS sp order r : ℚ) / (affT sp order r : ℚ)) ∧
    (¬ 0 < affT sp order r → affinity sp order r = -1) ∧
    ((∀ p ∈ order, ∀ w, sp p r = some w → 0 ≤ w) → 0 < affT sp order r →
      -1 < affinity sp order r) ∧
    (sortedPC sp order pcL).Pairwise
      (fun a b => affinity sp order a ≤ affinity sp order b) ∧
    (sortedPC sp order pcL).Perm pcL ∧
    (∀ a b : R, [a, b].Sublist pcL → affinity sp order a = affinity sp order b →
      [a, b].Sublist (sortedPC sp order pcL)) := by
  refine ⟨fun h => if_pos h, fun h => if_neg h, ?_, ?_, ?_, ?_⟩
  · intro hnn ht
    rw [affinity, if_pos ht]
    have hs : (0 : ℚ) ≤ (affS sp order r : ℚ) / (affT sp order r : ℚ) := by
      apply div_nonneg
      · exact_mod_cast affS_nonneg hnn
      · exact_mod_cast le_of_lt ht
    linarith
  · exact (List.sorted_mergeSort (affLE_trans sp order) (affLE_total sp order) pcL).imp
      (fun h => of_decide_eq_true h)
  · exact List.mergeSort_perm pcL (affLE sp order)
  · intro a b hsub heq
    exact List.pair_sublist_mergeSort (affLE_trans sp order) (affLE_total sp order)
      (decide_eq_true (le_of_eq heq)) hsub

/-- Concrete scaled table for the C7 counterexample: one reviewer whose
single scaled entry is the intensity 0. -/
def sp7 : P → R → Option ℤ := fun p r => if p = 0 ∧ r = 0 then some 0 else none

/-- Counterexample to claim C7 as stated: a reviewer WITH a scaled entry
(intensity 0) receives the sentinel affinity -1, while the claim's
weighted-average formula applies and (with rational semantics 0/0 = 0)
does not give -1 — the code reserves the sentinel for zero intensity
*sum*, not just for missing entries. -/
theorem C7_counterexample :
    affinity sp7 [0] 0 = -1 ∧ affinitySpecC7 sp7 [0] 0 = 0 ∧
    affinity sp7 [0] 0 ≠ affinitySpecC7 sp7 [0] 0 := by
  refine ⟨rfl, ?_, ?_⟩
  · norm_num [affinitySpecC7, sp7, affS, affT]
  · intro h
    rw [show affinity sp7 [0] 0 = -1 from rfl] at h
    rw [show affinitySpecC7 sp7 [0] 0 = 0 by norm_num [affinitySpecC7, sp7, affS, affT]] at h
    norm_num at h

/-- Concrete scaled table for the C7 witness: one positive intensity. -/
def spW : P → R → Option ℤ := fun p r => if p = 0 ∧ r = 0 then some 2 else none

/-- Witness for C7 at the concrete table `spW`, paper order `[0]` and
reviewer list `[1, 2]`. -/
theorem C7_reviewer_affinity_witness :
    (0 < affT spW [0] 0 ∧
      affinity spW [0] 0 = (affS spW [0] 0 : ℚ) / (affT spW [0] 0 : ℚ)) ∧
    ((∀ p ∈ [0], ∀ w, spW p 0 = some w → 0 ≤ w) ∧ -1 < affinity spW [0] 0) ∧
    (sortedPC spW [0] [1, 2]).Pairwise
      (fun a b => affinity spW [0] a ≤ affinity spW [0] b) ∧
    (sortedPC spW [0] [1, 2]).Perm [1, 2] ∧
    ([1, 2].Sublist ([1, 2] : List R) ∧ affinity spW [0] 1 = affinity spW [0] 2 ∧
      [1, 2].Sublist (sortedPC spW [0] [1, 2])) :=
  ⟨⟨by decide, (C7_reviewer_affinity spW [0] [1, 2] 0).1 (by decide)⟩,
   ⟨by decide, (C7_reviewer_affinity spW [0] [1, 2] 0).2.2.1 (by decide) (by decide)⟩,
   (C7_reviewer_affinity spW [0] [1, 2] 0).2.2.2.1,
   (C7_reviewer_affinity spW [0] [1, 2] 0).2.2.2.2.1,
   ⟨List.Sublist.refl _, rfl,
    (C7_reviewer_affinity spW [0] [1, 2] 0).2.2.2.2.2 1 2 (List.Sublist.refl _) rfl⟩⟩

/-- The reviewers scored for both papers (the loop of lines 256-259). -/
def shared (sp : P → R → Option ℤ) (pcL : List R) (p1 p2 : P) : List R :=
  pcL.filter (fun r => (sp p1 r).isSome && (sp p2 r).isSome)

/-- The accumulator `s` of `paper_dist`: sum of squared differences of the
scaled intensities over the shared reviewers. -/
def sharedS (sp : P → R → Option ℤ) (pcL : List R) (p1 p2 : P) : ℤ :=
  ((shared sp pcL p1 p2).map
    (fun r => ((sp p1 r).getD 0 - (sp p2 r).getD 0) ^ 2)).sum

/-- The accumulator `t` of `paper_dist`: the number of shared reviewers. -/
def sharedT (sp : P → R → Option ℤ) (pcL : List R) (p1 p2 : P) : ℕ :=
  (shared sp pcL p1 p2).length

/-- The `paper_dist` function (lines 252-260): `sqrt(s)/sqrt(t)`, with
`none` modelling the ZeroDivisionError `0.0/0.0` raised when the papers
share no scored reviewer. -/
noncomputable def paperDist (sp : P → R → Option ℤ) (pcL : List R) (p1 p2 : P) :
    Option ℝ :=
  if sharedT sp pcL p1 p2 = 0 then none
  else some (Real.sqrt (sharedS sp pcL p1 p2) /
    Real.sqrt (sharedT sp pcL p1 p2))

/-- The `papers_dist` function (lines 262-269): the product of the
pairwise distances over the Cartesian product of the two groups, raised to
the power `1/t` where `t` is the number of pairs — the geometric mean.
`none` propagates a `paper_dist` fault and models the ZeroDivisionError of
`1/t` when a group is empty. -/
noncomputable def papersDist (sp : P → R → Option ℤ) (pcL : List R)
    (l1 l2 : List P) : Option ℝ :=
  ((l1.flatMap (fun q1 => l2.map (fun q2 => paperDist sp pcL q1 q2))).mapM
    (fun d => d)).bind
    (fun ds =>
      if l1.length * l2.length = 0 then none
      else some (ds.prod ^ ((1 : ℝ) / ((l1.length * l2.length : ℕ) : ℝ))))

/-- The scan order of the pair loop (lines 273-274): `i` over `range n`,
`j` over `range(i+1, n)`, i.e. lexicographic order on pairs `i < j`. -/
def lexPairs (n : ℕ) : List (ℕ × ℕ) :=
  (List.range n).flatMap (fun i =>
    ((List.range n).filter (fun j => i < j)).map (fun j => (i, j)))

/-- Value-level form of the scan body of lines 275-276 over an arbitrary
real-valued pair function: replace the current best pair exactly when the
new pair's value is strictly smaller.  Used to characterize the behaviour
of the fault-propagating scan `stepMinO` on runs where no distance
computation raises. -/
noncomputable def stepMin (f : ℕ → ℕ → ℝ) (b ij : ℕ × ℕ) : ℕ × ℕ :=
  open Classical in
  if f ij.1 ij.2 < f b.1 b.2 then ij else b

/-- Value-level form of the scan of lines 272-276: fold the comparison
over the scan order, starting from the pair `(0, 1)`. -/
noncomputable def findBest (f : ℕ → ℕ → ℝ) (n : ℕ) : ℕ × ℕ :=
  (lexPairs n).foldl (stepMin f) (0, 1)

/-- The initial grouping (line 251): one singleton group per paper. -/
def initGroups (papersL : List P) : List (List P) := papersL.map (fun p => [p])

/-- Strict lexicographic order on scan pairs: the order in which the
nested loops of lines 273-274 visit them. -/
def lexLt (a b : ℕ × ℕ) : Prop := a.1 < b.1 ∨ (a.1 = b.1 ∧ a.2 < b.2)

lemma mem_lexPairs {n i j : ℕ} : (i, j) ∈ lexPairs n ↔ i < j ∧ j < n := by
  simp only [lexPairs, List.mem_flatMap, List.mem_map, List.mem_filter,
    List.mem_range, decide_eq_true_eq]
  constructor
  · rintro ⟨a, ha, b, ⟨hb, hab⟩, heq⟩
    obtain ⟨rfl, rfl⟩ := Prod.mk.injEq .. ▸ heq
    exact ⟨hab, hb⟩
  · rintro ⟨hij, hjn⟩
    exact ⟨i, lt_trans hij hjn, j, ⟨hjn, hij⟩, rfl⟩

lemma foldl_stepMin_choice (f : ℕ → ℕ → ℝ) :
    ∀ (l : List (ℕ × ℕ)) (b : ℕ × ℕ), l.foldl (stepMin f) b ∈ b :: l := by
  intro l
  induction l with
  | nil => intro b; exact List.mem_singleton.mpr rfl
  | cons q t ih =>
    intro b
    rw [List.foldl_cons]
    rcases List.mem_cons.mp (ih (stepMin f b q)) with h | h
    · rw [h, stepMin]
      split_ifs
      · exact List.mem_cons_of_mem b (List.mem_cons_self q t)
      · exact List.mem_cons_self b (q :: t)
    · exact List.mem_cons_of_mem b (List.mem_cons_of_mem q h)

lemma lexPairs_pairwise (n : ℕ) : (lexPairs n).Pairwise lexLt := by
  rw [lexPairs, List.pairwise_flatMap]
  constructor
  · intro i _
    rw [List.pairwise_map]
    apply List.Pairwise.filter
    apply (List.pairwise_lt_range n).imp
    intro a b hab
    exact Or.inr ⟨rfl, hab⟩
  · apply (List.pairwise_lt_range n).imp
    intro a b hab
    intro x hx y hy
    obtain ⟨a2, _, rfl⟩ := List.mem_map.mp hx
    obtain ⟨b2, _, rfl⟩ := List.mem_map.mp hy
    exact Or.inl hab

lemma foldl_stepMin_spec (f : ℕ → ℕ → ℝ) :
    ∀ (l : List (ℕ × ℕ)) (b0 : ℕ × ℕ),
    (l.foldl (stepMin f) b0 = b0 ∧
      ∀ q ∈ l, f (l.foldl (stepMin f) b0).1 (l.foldl (stepMin f) b0).2 ≤ f q.1 q.2) ∨
    (∃ l1 l2, l = l1 ++ (l.foldl (stepMin f) b0) :: l2 ∧
      f (l.foldl (stepMin f) b0).1 (l.foldl (stepMin f) b0).2 < f b0.1 b0.2 ∧
      (∀ q ∈ l1, f (l.foldl (stepMin f) b0).1 (l.foldl (stepMin f) b0).2 < f q.1 q.2) ∧
      (∀ q ∈ l2, f (l.foldl (stepMin f) b0).1 (l.foldl (stepMin f) b0).2 ≤ f q.1 q.2)) := by
  intro l
  induction l with
  | nil =>
    intro b0
    left
    exact ⟨rfl, by intro q hq; cases hq⟩
  | cons q t ih =>
    intro b0
    rw [List.foldl_cons]
    by_cases hq : f q.1 q.2 < f b0.1 b0.2
    · have hstep : stepMin f b0 q = q := by rw [stepMin]; exact if_pos hq
      rw [hstep]
      rcases ih q with ⟨heq, hmin⟩ | ⟨l1, l2, hdec, hlt, h1, h2⟩
      · right
        refine ⟨[], t, ?_, ?_, ?_, ?_⟩
        · rw [heq, List.nil_append]
        · rw [heq]; exact hq
        · intro x hx; cases hx
        · exact hmin
      · right
        refine ⟨q :: l1, l2, ?_, ?_, ?_, ?_⟩
        · rw [List.cons_append, ← hdec]
        · exact lt_trans hlt hq
        · intro x hx
          rcases List.mem_cons.mp hx with rfl | hx
          · exact hlt
          · exact h1 x hx
        · exact h2
    · have hstep : stepMin f b0 q = b0 := by rw [stepMin]; exact if_neg hq
      rw [hstep]
      have hq' : f b0.1 b0.2 ≤ f q.1 q.2 := le_of_not_lt hq
      rcases ih b0 with ⟨heq, hmin⟩ | ⟨l1, l2, hdec, hlt, h1, h2⟩
      · left
        refine ⟨heq, ?_⟩
        intro x hx
        rcases List.mem_cons.mp hx with rfl | hx
        · rw [heq]; exact hq'
        · exact hmin x hx
      · right
        refine ⟨q :: l1, l2, ?_, hlt, ?_, h2⟩
        · rw [List.cons_append, ← hdec]
        · intro x hx
          rcases List.mem_cons.mp hx with rfl | hx
          · exact lt_of_lt_of_le hlt hq'
          · exact h1 x hx

lemma findBest_mem (f : ℕ → ℕ → ℝ) {n : ℕ} (hn : 2 ≤ n) :
    findBest f n ∈ lexPairs n := by
  have h01 : ((0 : ℕ), (1 : ℕ)) ∈ lexPairs n :=
    mem_lexPairs.mpr ⟨Nat.zero_lt_one, hn⟩
  rcases List.mem_cons.mp (foldl_stepMin_choice f (lexPairs n) (0, 1)) with h | h
  · rw [findBest, h]; exact h01
  · exact h

lemma findBest_valid (f : ℕ → ℕ → ℝ) {n : ℕ} (hn : 2 ≤ n) :
    (findBest f n).1 < (findBest f n).2 ∧ (findBest f n).2 < n := by
  have := findBest_mem f hn
  have h2 : ((findBest f n).1, (findBest f n).2) ∈ lexPairs n := this
  exact mem_lexPairs.mp h2

lemma findBest_min (f : ℕ → ℕ → ℝ) {n : ℕ} :
    ∀ q ∈ lexPairs n, f (findBest f n).1 (findBest f n).2 ≤ f q.1 q.2 := by
  intro q hq
  rcases foldl_stepMin_spec f (lexPairs n) (0, 1) with ⟨heq, hmin⟩ |
    ⟨l1, l2, hdec, hlt, h1, h2⟩
  · exact hmin q hq
  · have hdec2 : lexPairs n = l1 ++ findBest f n :: l2 := hdec
    rw [hdec2] at hq
    rcases List.mem_append.mp hq with hq1 | hq2
    · exact le_of_lt (h1 q hq1)
    · rcases List.mem_cons.mp hq2 with rfl | hq3
      · exact le_refl _
      · exact h2 q hq3

lemma findBest_tie (f : ℕ → ℕ → ℝ) {n : ℕ} :
    ∀ q ∈ lexPairs n,
      f q.1 q.2 = f (findBest f n).1 (findBest f n).2 → ¬ lexLt q (findBest f n) := by
  intro q hq hfq hlex
  rcases foldl_stepMin_spec f (lexPairs n) (0, 1) with ⟨heq, hmin⟩ |
    ⟨l1, l2, hdec, hlt, h1, h2⟩
  · have heq2 : findBest f n = (0, 1) := heq
    rw [heq2] at hlex
    obtain ⟨hq12, hq2n⟩ := mem_lexPairs.mp (show (q.1, q.2) ∈ lexPairs n from hq)
    rcases hlex with h | ⟨h, h2⟩ <;> omega
  · have hdec2 : lexPairs n = l1 ++ findBest f n :: l2 := hdec
    have hpw := lexPairs_pairwise n
    rw [hdec2] at hpw
    obtain ⟨-, hcons, -⟩ := List.pairwise_append.mp hpw
    have hafter : ∀ x ∈ l2, lexLt (findBest f n) x :=
      (List.pairwise_cons.mp hcons).1
    rw [hdec2] at hq
    rcases List.mem_append.mp hq with hq1 | hq2
    · have := h1 q hq1
      rw [hfq] at this
      exact absurd this (lt_irrefl _)
    · rcases List.mem_cons.mp hq2 with rfl | hq3
      · rcases hlex with h | ⟨h, h2⟩ <;> omega
      · have := hafter q hq3
        rcases hlex with h | ⟨h, hb⟩ <;> rcases this with h' | ⟨h', hb'⟩ <;> omega

lemma mapM_id_map_some (l : List ℝ) : (l.map some).mapM (fun d => d) = some l := by
  rw [← List.mapM'_eq_mapM]
  induction l with
  | nil => rfl
  | cons x t ih => simp [List.mapM'_cons, ih]

lemma papersDist_isSome (sp : P → R → Option ℤ) (pcL : List R)
    {l1 l2 : List P} (h1 : l1 ≠ []) (h2 : l2 ≠ [])
    (hsh : ∀ q1 ∈ l1, ∀ q2 ∈ l2, sharedT sp pcL q1 q2 ≠ 0) :
    (papersDist sp pcL l1 l2).isSome := by
  have hmap : l1.flatMap (fun q1 => l2.map (fun q2 => paperDist sp pcL q1 q2)) =
      (l1.flatMap (fun q1 => l2.map (fun q2 =>
        Real.sqrt (sharedS sp pcL q1 q2) / Real.sqrt (sharedT sp pcL q1 q2)))).map
        some := by
    rw [List.map_flatMap]
    apply List.flatMap_congr
    intro q1 hq1
    rw [List.map_map]
    apply List.map_congr_left
    intro q2 hq2
    rw [paperDist, if_neg (hsh q1 hq1 q2 hq2)]
    rfl
  have hlen : l1.length * l2.length ≠ 0 :=
    Nat.mul_ne_zero (fun h => h1 (List.length_eq_zero.mp h))
      (fun h => h2 (List.length_eq_zero.mp h))
  rw [papersDist, hmap, mapM_id_map_some, Option.some_bind, if_neg hlen]
  rfl

lemma sharedS_nonneg (sp : P → R → Option ℤ) (pcL : List R) (p1 p2 : P) :
    0 ≤ sharedS sp pcL p1 p2 := by
  apply List.sum_nonneg
  intro x hx
  obtain ⟨r0, _, rfl⟩ := List.mem_map.mp hx
  exact sq_nonneg _

/-- Claim C1 (amended): whenever the two papers share at least one scored
reviewer, `paper_dist` equals the root-mean-square difference
`sqrt(sum((s1-s2)^2) / count)` of their scaled intensities over the shared
reviewers (the code's `sqrt(s)/sqrt(t)` equals `sqrt(s/t)`); but when they
share NO scored reviewer the computation raises ZeroDivisionError
(`0.0/0.0`) — no fixed worst-case value is substituted, and the clustering
loop dies instead of treating the papers as maximally dissimilar. -/
theorem C1_paper_distance (sp : P → R → Option ℤ) (pcL : List R) (p1 p2 : P) :
    (0 < sharedT sp pcL p1 p2 →
      paperDist sp pcL p1 p2 =
        some (Real.sqrt ((sharedS sp pcL p1 p2 : ℝ) / (sharedT sp pcL p1 p2 : ℝ)))) ∧
    (sharedT sp pcL p1 p2 = 0 → paperDist sp pcL p1 p2 = none) := by
  constructor
  · intro ht
    rw [paperDist, if_neg (Nat.pos_iff_ne_zero.mp ht)]
    have hs : (0 : ℝ) ≤ (sharedS sp pcL p1 p2 : ℝ) := by
      exact_mod_cast sharedS_nonneg sp pcL p1 p2
    rw [Real.sqrt_div hs]
  · intro h0
    rw [paperDist, if_pos h0]

/-- Concrete scaled table for the C1 counterexample: paper 0 is scored
only by reviewer 0, paper 1 only by reviewer 1 — no shared reviewer. -/
def sp1 : P → R → Option ℤ := fun p r =>
  if p = 0 ∧ r = 0 then some 10 else if p = 1 ∧ r = 1 then some 20 else none

/-- Counterexample to claim C1 as stated: with no shared scored reviewer
the code produces NO distance value at all (ZeroDivisionError), rather
than the claimed fixed worst-case value. -/
theorem C1_counterexample :
    sharedT sp1 [0, 1] 0 1 = 0 ∧
    paperDist sp1 [0, 1] 0 1 = none ∧
    ∀ x : ℝ, paperDist sp1 [0, 1] 0 1 ≠ some x := by
  have h0 : sharedT sp1 [0, 1] 0 1 = 0 := by decide
  refine ⟨h0, ?_, ?_⟩
  · rw [paperDist, if_pos h0]
  · intro x
    rw [paperDist, if_pos h0]
    exact fun h => Option.noConfusion h

/-- Concrete scaled table for the C1 witness: both papers scored by
reviewer 0. -/
def spD : P → R → Option ℤ := fun p r =>
  if r = 0 ∧ p = 0 then some 0 else if r = 0 ∧ p = 1 then some 10 else none

/-- Witness for C1 at the concrete table `spD`. -/
theorem C1_paper_distance_witness :
    0 < sharedT spD [0] 0 1 ∧
    paperDist spD [0] 0 1 =
      some (Real.sqrt ((sharedS spD [0] 0 1 : ℝ) / (sharedT spD [0] 0 1 : ℝ))) :=
  ⟨by decide, (C1_paper_distance spD [0] 0 1).1 (by decide)⟩


/-- The body of the best-pair scan as the program executes it (lines
275-276): both cluster distances are computed — a ZeroDivisionError
inside either `papers_dist` call aborts the run, modelled by `none`
propagation — and the best pair is replaced exactly when the new pair's
distance is strictly smaller. -/
noncomputable def stepMinO (F : ℕ → ℕ → Option ℝ) (b : Option (ℕ × ℕ))
    (ij : ℕ × ℕ) : Option (ℕ × ℕ) :=
  open Classical in
  b.bind (fun b0 => (F ij.1 ij.2).bind (fun dij =>
    (F b0.1 b0.2).map (fun db => if dij < db then ij else b0)))

/-- The best-pair scan of lines 272-276 with fault propagation: fold the
comparison over the scan order, starting from the initial best pair
`(0, 1)` of line 272; `none` means some distance computation raised. -/
noncomputable def findBestO (F : ℕ → ℕ → Option ℝ) (n : ℕ) : Option (ℕ × ℕ) :=
  (lexPairs n).foldl (stepMinO F) (some (0, 1))

/-- The cluster distance between the groups at positions `i` and `j` of
the current grouping (the `papers_dist` calls of line 275). -/
noncomputable def groupDist (sp : P → R → Option ℤ) (pcL : List R)
    (gs : List (List P)) (i j : ℕ) : Option ℝ :=
  papersDist sp pcL (gs.getD i []) (gs.getD j [])

/-- One iteration of the merge loop (lines 272-280): scan for the best
pair `(i, j)` — the run dies if a distance computation raises — then
splice the list, replacing group `i` by the concatenation of groups `i`
and `j` and removing group `j`. -/
noncomputable def mergeStepO (sp : P → R → Option ℤ) (pcL : List R)
    (gs : List (List P)) : Option (List (List P)) :=
  (findBestO (groupDist sp pcL gs) gs.length).map (fun b =>
    gs.take b.1 ++ [gs.getD b.1 [] ++ gs.getD b.2 []] ++
      (gs.drop (b.1 + 1)).take (b.2 - (b.1 + 1)) ++ gs.drop (b.2 + 1))

lemma foldl_stepMinO_choice (F : ℕ → ℕ → Option ℝ) :
    ∀ (l : List (ℕ × ℕ)) (b : Option (ℕ × ℕ)) (r : ℕ × ℕ),
      l.foldl (stepMinO F) b = some r → b = some r ∨ r ∈ l := by
  intro l
  induction l with
  | nil =>
    intro b r h
    exact Or.inl h
  | cons q t ih =>
    intro b r h
    rw [List.foldl_cons] at h
    rcases ih (stepMinO F b q) r h with hs | hs
    · cases hb : b with
      | none => rw [stepMinO, hb] at hs; cases hs
      | some b0 =>
        rw [stepMinO, hb, Option.some_bind] at hs
        cases hFq : F q.1 q.2 with
        | none => rw [hFq] at hs; cases hs
        | some dij =>
          rw [hFq, Option.some_bind] at hs
          cases hFb : F b0.1 b0.2 with
          | none => rw [hFb] at hs; cases hs
          | some db =>
            rw [hFb, Option.map_some'] at hs
            obtain heq := Option.some_injective _ hs
            by_cases hlt : dij < db
            · rw [if_pos hlt] at heq
              exact Or.inr (heq ▸ List.mem_cons_self q t)
            · rw [if_neg hlt] at heq
              exact Or.inl (by rw [heq])
    · exact Or.inr (List.mem_cons_of_mem q hs)

lemma findBestO_valid {F : ℕ → ℕ → Option ℝ} {n : ℕ} {b : ℕ × ℕ}
    (h : findBestO F n = some b) (hn : 2 ≤ n) : b.1 < b.2 ∧ b.2 < n := by
  rcases foldl_stepMinO_choice F (lexPairs n) (some (0, 1)) b h with hb | hb
  · obtain rfl := Option.some_injective _ hb.symm
    exact ⟨Nat.zero_lt_one, hn⟩
  · exact mem_lexPairs.mp (show (b.1, b.2) ∈ lexPairs n from hb)

lemma mergeStepO_length {sp : P → R → Option ℤ} {pcL : List R}
    {gs gs2 : List (List P)} (h : mergeStepO sp pcL gs = some gs2)
    (hn : 2 ≤ gs.length) : gs2.length = gs.length - 1 := by
  rw [mergeStepO] at h
  obtain ⟨b, hb, hsp⟩ := Option.map_eq_some'.mp h
  obtain ⟨hij, hjn⟩ := findBestO_valid hb hn
  rw [← hsp]
  simp only [List.length_append, List.length_take, List.length_drop,
    List.length_cons, List.length_nil]
  omega

/-- The merge loop of lines 271-280 with fault propagation: repeat
`mergeStepO` while more than one group remains; a distance fault anywhere
aborts the whole computation. -/
noncomputable def clusterO (sp : P → R → Option ℤ) (pcL : List R)
    (gs : List (List P)) : Option (List (List P)) :=
  if h : 1 < gs.length then
    match h2 : mergeStepO sp pcL gs with
    | some gs2 =>
      have : gs2.length < gs.length := by
        rw [mergeStepO_length h2 h]
        omega
      clusterO sp pcL gs2
    | none => none
  else some gs
termination_by gs.length

lemma clusterO_step {sp : P → R → Option ℤ} {pcL : List R}
    {gs gs2 : List (List P)} (h : 1 < gs.length)
    (hm : mergeStepO sp pcL gs = some gs2) :
    clusterO sp pcL gs = clusterO sp pcL gs2 := by
  rw [clusterO, dif_pos h]
  split
  · rename_i gs3 h3
    rw [hm] at h3
    obtain rfl := Option.some_injective _ h3
    rfl
  · rename_i h3
    rw [hm] at h3
    cases h3

lemma clusterO_stop {sp : P → R → Option ℤ} {pcL : List R}
    {gs : List (List P)} (h : ¬ 1 < gs.length) :
    clusterO sp pcL gs = some gs := by
  rw [clusterO, dif_neg h]

lemma getD_mem {α : Type} {l : List α} {i : ℕ} (d : α) (h : i < l.length) :
    l.getD i d ∈ l := by
  rw [List.getD_eq_getElem?_getD, List.getElem?_eq_getElem h]
  exact List.getElem_mem h

lemma foldl_stepMinO_eq (F : ℕ → ℕ → Option ℝ) (f : ℕ → ℕ → ℝ) :
    ∀ (l : List (ℕ × ℕ)) (b0 : ℕ × ℕ),
      (∀ q ∈ b0 :: l, F q.1 q.2 = some (f q.1 q.2)) →
      l.foldl (stepMinO F) (some b0) = some (l.foldl (stepMin f) b0) := by
  intro l
  induction l with
  | nil => intro b0 _; rfl
  | cons q t ih =>
    intro b0 hF
    have hFq : F q.1 q.2 = some (f q.1 q.2) :=
      hF q (List.mem_cons_of_mem b0 (List.mem_cons_self q t))
    have hFb : F b0.1 b0.2 = some (f b0.1 b0.2) := hF b0 (List.mem_cons_self b0 _)
    have hstep : stepMinO F (some b0) q = some (stepMin f b0 q) := by
      rw [stepMinO, Option.some_bind, hFq, Option.some_bind, hFb, Option.map_some']
      by_cases hlt : f q.1 q.2 < f b0.1 b0.2
      · rw [if_pos hlt]
        have : stepMin f b0 q = q := by rw [stepMin]; exact if_pos hlt
        rw [this]
      · rw [if_neg hlt]
        have : stepMin f b0 q = b0 := by rw [stepMin]; exact if_neg hlt
        rw [this]
    rw [List.foldl_cons, List.foldl_cons, hstep]
    apply ih
    intro x hx
    rcases List.mem_cons.mp hx with rfl | hx2
    · by_cases hlt : f q.1 q.2 < f b0.1 b0.2
      · have : stepMin f b0 q = q := by rw [stepMin]; exact if_pos hlt
        rw [this]
        exact hFq
      · have : stepMin f b0 q = b0 := by rw [stepMin]; exact if_neg hlt
        rw [this]
        exact hFb
    · exact hF x (List.mem_cons_of_mem b0 (List.mem_cons_of_mem q hx2))

lemma findBestO_eq (F : ℕ → ℕ → Option ℝ) (f : ℕ → ℕ → ℝ) (n : ℕ)
    (hF : ∀ q ∈ ((0, 1) :: lexPairs n : List (ℕ × ℕ)), F q.1 q.2 = some (f q.1 q.2)) :
    findBestO F n = some (findBest f n) :=
  foldl_stepMinO_eq F f (lexPairs n) (0, 1) hF

lemma scan_defined (sp : P → R → Option ℤ) (pcL : List R) {gs : List (List P)}
    (hgs : 2 ≤ gs.length) (hgne : ∀ g ∈ gs, g ≠ [])
    (hAll : ∀ g1 ∈ gs, ∀ g2 ∈ gs, ∀ q1 ∈ g1, ∀ q2 ∈ g2, sharedT sp pcL q1 q2 ≠ 0) :
    ∀ q ∈ ((0, 1) :: lexPairs gs.length : List (ℕ × ℕ)),
      groupDist sp pcL gs q.1 q.2 =
        some ((groupDist sp pcL gs q.1 q.2).getD 0) := by
  intro q hq
  have hq2 : q.1 < q.2 ∧ q.2 < gs.length := by
    rcases List.mem_cons.mp hq with rfl | hq3
    · exact ⟨Nat.zero_lt_one, hgs⟩
    · exact mem_lexPairs.mp (show (q.1, q.2) ∈ lexPairs gs.length from hq3)
  have hg1 : gs.getD q.1 [] ∈ gs := getD_mem [] (lt_trans hq2.1 hq2.2)
  have hg2 : gs.getD q.2 [] ∈ gs := getD_mem [] hq2.2
  have hsome : (papersDist sp pcL (gs.getD q.1 []) (gs.getD q.2 [])).isSome :=
    papersDist_isSome sp pcL (hgne _ hg1) (hgne _ hg2)
      (fun x1 h1 x2 h2 => hAll _ hg1 _ hg2 x1 h1 x2 h2)
  rw [groupDist]
  cases hc : papersDist sp pcL (gs.getD q.1 []) (gs.getD q.2 []) with
  | none => rw [hc] at hsome; cases hsome
  | some v => rfl

lemma mergeStepO_some (sp : P → R → Option ℤ) (pcL : List R) {gs : List (List P)}
    (hgs : 2 ≤ gs.length) (hgne : ∀ g ∈ gs, g ≠ [])
    (hAll : ∀ g1 ∈ gs, ∀ g2 ∈ gs, ∀ q1 ∈ g1, ∀ q2 ∈ g2, sharedT sp pcL q1 q2 ≠ 0) :
    mergeStepO sp pcL gs =
      some (gs.take (findBest (fun i j => (groupDist sp pcL gs i j).getD 0) gs.length).1 ++
        [gs.getD (findBest (fun i j => (groupDist sp pcL gs i j).getD 0) gs.length).1 [] ++
          gs.getD (findBest (fun i j => (groupDist sp pcL gs i j).getD 0) gs.length).2 []] ++
        (gs.drop ((findBest (fun i j => (groupDist sp pcL gs i j).getD 0) gs.length).1 + 1)).take
          ((findBest (fun i j => (groupDist sp pcL gs i j).getD 0) gs.length).2 -
            ((findBest (fun i j => (groupDist sp pcL gs i j).getD 0) gs.length).1 + 1)) ++
        gs.drop ((findBest (fun i j => (groupDist sp pcL gs i j).getD 0) gs.length).2 + 1)) := by
  rw [mergeStepO,
    findBestO_eq (groupDist sp pcL gs) (fun i j => (groupDist sp pcL gs i j).getD 0)
      gs.length (scan_defined sp pcL hgs hgne hAll),
    Option.map_some']

lemma mem_splice {gs : List (List P)} {b : ℕ × ℕ} {g : List P}
    (hg : g ∈ gs.take b.1 ++ [gs.getD b.1 [] ++ gs.getD b.2 []] ++
      (gs.drop (b.1 + 1)).take (b.2 - (b.1 + 1)) ++ gs.drop (b.2 + 1)) :
    g ∈ gs ∨ g = gs.getD b.1 [] ++ gs.getD b.2 [] := by
  simp only [List.mem_append, List.mem_singleton] at hg
  rcases hg with ((h | h) | h) | h
  · exact Or.inl ((List.take_sublist _ _).subset h)
  · exact Or.inr h
  · exact Or.inl (((List.take_sublist _ _).trans (List.drop_sublist _ _)).subset h)
  · exact Or.inl ((List.drop_sublist _ _).subset h)

lemma invariants_splice (sp : P → R → Option ℤ) (pcL : List R)
    {gs : List (List P)} {b : ℕ × ℕ} (hij : b.1 < b.2) (hjn : b.2 < gs.length)
    (hgne : ∀ g ∈ gs, g ≠ [])
    (hAll : ∀ g1 ∈ gs, ∀ g2 ∈ gs, ∀ q1 ∈ g1, ∀ q2 ∈ g2, sharedT sp pcL q1 q2 ≠ 0) :
    (∀ g ∈ gs.take b.1 ++ [gs.getD b.1 [] ++ gs.getD b.2 []] ++
        (gs.drop (b.1 + 1)).take (b.2 - (b.1 + 1)) ++ gs.drop (b.2 + 1), g ≠ []) ∧
    (∀ g1 ∈ gs.take b.1 ++ [gs.getD b.1 [] ++ gs.getD b.2 []] ++
        (gs.drop (b.1 + 1)).take (b.2 - (b.1 + 1)) ++ gs.drop (b.2 + 1),
      ∀ g2 ∈ gs.take b.1 ++ [gs.getD b.1 [] ++ gs.getD b.2 []] ++
        (gs.drop (b.1 + 1)).take (b.2 - (b.1 + 1)) ++ gs.drop (b.2 + 1),
      ∀ q1 ∈ g1, ∀ q2 ∈ g2, sharedT sp pcL q1 q2 ≠ 0) := by
  have hmem1 : gs.getD b.1 [] ∈ gs := getD_mem [] (lt_trans hij hjn)
  have hmem2 : gs.getD b.2 [] ∈ gs := getD_mem [] hjn
  have horigin : ∀ g ∈ gs.take b.1 ++ [gs.getD b.1 [] ++ gs.getD b.2 []] ++
      (gs.drop (b.1 + 1)).take (b.2 - (b.1 + 1)) ++ gs.drop (b.2 + 1),
      ∀ p ∈ g, ∃ g0 ∈ gs, p ∈ g0 := by
    intro g hg p hp
    rcases mem_splice hg with hg2 | rfl
    · exact ⟨g, hg2, hp⟩
    · rcases List.mem_append.mp hp with hp2 | hp2
      · exact ⟨_, hmem1, hp2⟩
      · exact ⟨_, hmem2, hp2⟩
  constructor
  · intro g hg
    rcases mem_splice hg with hg2 | rfl
    · exact hgne g hg2
    · intro hemp
      obtain ⟨he1, -⟩ := List.append_eq_nil.mp hemp
      exact hgne _ hmem1 he1
  · intro g1 hg1 g2 hg2 q1 hq1 q2 hq2
    obtain ⟨g01, hg01, hq01⟩ := horigin g1 hg1 q1 hq1
    obtain ⟨g02, hg02, hq02⟩ := horigin g2 hg2 q2 hq2
    exact hAll g01 hg01 g02 hg02 q1 hq01 q2 hq02

lemma clusterO_total (sp : P → R → Option ℤ) (pcL : List R) :
    ∀ (n : ℕ) (gs : List (List P)), gs.length ≤ n → gs ≠ [] →
      (∀ g ∈ gs, g ≠ []) →
      (∀ g1 ∈ gs, ∀ g2 ∈ gs, ∀ q1 ∈ g1, ∀ q2 ∈ g2, sharedT sp pcL q1 q2 ≠ 0) →
      ∃ l, clusterO sp pcL gs = some [l] := by
  intro n
  induction n with
  | zero =>
    intro gs hle hne _ _
    exact absurd (List.length_eq_zero.mp (Nat.le_zero.mp hle)) hne
  | succ m ih =>
    intro gs hle hne hgne hAll
    by_cases h : 1 < gs.length
    · have h2 : 2 ≤ gs.length := h
      have hb := findBest_valid (fun i j => (groupDist sp pcL gs i j).getD 0) h2
      have hm := mergeStepO_some sp pcL h2 hgne hAll
      have hinv := invariants_splice sp pcL hb.1 hb.2 hgne hAll
      have hlen := mergeStepO_length hm h2
      rw [clusterO_step h hm]
      apply ih
      · rw [hlen]; omega
      · intro hemp
        rw [hemp] at hlen
        simp at hlen
        omega
      · exact hinv.1
      · exact hinv.2
    · rw [clusterO_stop h]
      have h1 : gs.length = 1 := by
        have : 0 < gs.length := List.length_pos.mpr hne
        omega
      obtain ⟨x, hx⟩ := List.length_eq_one.mp h1
      exact ⟨x, by rw [hx]⟩

/-- Claim C2 (confirmed on the fault-free domain): when every pair of
papers shares at least one scored reviewer — the hypothesis under which
none of the loop's distance computations raises (claim C1 settles the
raising case) — the agglomerative loop started from one singleton group
per paper succeeds and terminates with exactly one group, whose sequence
is the final paper order; and from any grouping of at least two non-empty
groups over such papers, the iteration's scan succeeds and returns a
valid pair `(i, j)` with `i < j` whose cluster distance is minimal among
all scan pairs — minimality and tie-breaking stated on the values of the
fault-modelling distance itself, ties broken to the lexicographically
earliest scan pair — and the merge replaces the left-hand group by the
concatenation left ++ right, keeps the groups in between, removes the
right-hand group, and the loop recurses on the merged state. -/
theorem C2_agglomerative_order (sp : P → R → Option ℤ) (pcL : List R)
    (papersL : List P) (gs : List (List P))
    (hne : papersL ≠ [])
    (hAllP : ∀ q1 ∈ papersL, ∀ q2 ∈ papersL, sharedT sp pcL q1 q2 ≠ 0)
    (hgs : 2 ≤ gs.length)
    (hgne : ∀ g ∈ gs, g ≠ [])
    (hAll : ∀ g1 ∈ gs, ∀ g2 ∈ gs, ∀ q1 ∈ g1, ∀ q2 ∈ g2, sharedT sp pcL q1 q2 ≠ 0) :
    (∃ ord, clusterO sp pcL (initGroups papersL) = some [ord]) ∧
    (∃ b : ℕ × ℕ,
      findBestO (groupDist sp pcL gs) gs.length = some b ∧
      b ∈ lexPairs gs.length ∧
      (∀ q ∈ lexPairs gs.length, ∀ db dq : ℝ,
        groupDist sp pcL gs b.1 b.2 = some db →
        groupDist sp pcL gs q.1 q.2 = some dq → db ≤ dq) ∧
      (∀ q ∈ lexPairs gs.length, ∀ db dq : ℝ,
        groupDist sp pcL gs b.1 b.2 = some db →
        groupDist sp pcL gs q.1 q.2 = some dq → dq = db → ¬ lexLt q b) ∧
      mergeStepO sp pcL gs =
        some (gs.take b.1 ++ [gs.getD b.1 [] ++ gs.getD b.2 []] ++
          (gs.drop (b.1 + 1)).take (b.2 - (b.1 + 1)) ++ gs.drop (b.2 + 1)) ∧
      clusterO sp pcL gs =
        clusterO sp pcL
          (gs.take b.1 ++ [gs.getD b.1 [] ++ gs.getD b.2 []] ++
            (gs.drop (b.1 + 1)).take (b.2 - (b.1 + 1)) ++ gs.drop (b.2 + 1))) := by
  constructor
  · apply clusterO_total sp pcL (initGroups papersL).length _ (le_refl _)
    · intro h
      rw [initGroups] at h
      exact hne (List.map_eq_nil_iff.mp h)
    · intro g hg
      obtain ⟨p, _, rfl⟩ := List.mem_map.mp hg
      exact List.cons_ne_nil p []
    · intro g1 hg1 g2 hg2 q1 hq1 q2 hq2
      obtain ⟨p1, hp1, rfl⟩ := List.mem_map.mp hg1
      obtain ⟨p2, hp2, rfl⟩ := List.mem_map.mp hg2
      obtain rfl := List.mem_singleton.mp hq1
      obtain rfl := List.mem_singleton.mp hq2
      exact hAllP q1 hp1 q2 hp2
  · refine ⟨findBest (fun i j => (groupDist sp pcL gs i j).getD 0) gs.length,
      findBestO_eq (groupDist sp pcL gs)
        (fun i j => (groupDist sp pcL gs i j).getD 0) gs.length
        (scan_defined sp pcL hgs hgne hAll),
      findBest_mem (fun i j => (groupDist sp pcL gs i j).getD 0) hgs,
      ?_, ?_, mergeStepO_some sp pcL hgs hgne hAll,
      clusterO_step hgs (mergeStepO_some sp pcL hgs hgne hAll)⟩
    · intro q hq db dq hdb hdq
      have hdb2 : (groupDist sp pcL gs
          (findBest (fun i j => (groupDist sp pcL gs i j).getD 0) gs.length).1
          (findBest (fun i j => (groupDist sp pcL gs i j).getD 0) gs.length).2).getD 0 =
          db := by
        rw [hdb]
        rfl
      have hdq2 : (groupDist sp pcL gs q.1 q.2).getD 0 = dq := by
        rw [hdq]
        rfl
      rw [← hdb2, ← hdq2]
      exact findBest_min (fun i j => (groupDist sp pcL gs i j).getD 0) q hq
    · intro q hq db dq hdb hdq heq hlex
      have hdb2 : (groupDist sp pcL gs
          (findBest (fun i j => (groupDist sp pcL gs i j).getD 0) gs.length).1
          (findBest (fun i j => (groupDist sp pcL gs i j).getD 0) gs.length).2).getD 0 =
          db := by
        rw [hdb]
        rfl
      have hdq2 : (groupDist sp pcL gs q.1 q.2).getD 0 = dq := by
        rw [hdq]
        rfl
      apply findBest_tie (fun i j => (groupDist sp pcL gs i j).getD 0) q hq _ hlex
      beta_reduce
      rw [hdb2, hdq2, heq]

/-- Concrete scaled table for the C2 witness: papers 0 and 1 both scored
by reviewer 0, so every pair of papers shares a scored reviewer. -/
def spC2 : P → R → Option ℤ := fun p r =>
  if r = 0 ∧ p ≤ 1 then some (p : ℤ) else none

/-- Witness for C2 at the concrete table `spC2` with the two papers
`[0, 1]` and their singleton groups. -/
theorem C2_agglomerative_order_witness :
    (([0, 1] : List P) ≠ [] ∧
     (∀ q1 ∈ ([0, 1] : List P), ∀ q2 ∈ ([0, 1] : List P),
       sharedT spC2 [0] q1 q2 ≠ 0) ∧
     2 ≤ (initGroups [0, 1]).length ∧
     (∀ g ∈ initGroups [0, 1], g ≠ []) ∧
     (∀ g1 ∈ initGroups [0, 1], ∀ g2 ∈ initGroups [0, 1],
       ∀ q1 ∈ g1, ∀ q2 ∈ g2, sharedT spC2 [0] q1 q2 ≠ 0)) ∧
    (∃ ord, clusterO spC2 [0] (initGroups [0, 1]) = some [ord]) ∧
    (∃ b : ℕ × ℕ,
      findBestO (groupDist spC2 [0] (initGroups [0, 1]))
        (initGroups [0, 1]).length = some b ∧
      b ∈ lexPairs (initGroups [0, 1]).length ∧
      (∀ q ∈ lexPairs (initGroups [0, 1]).length, ∀ db dq : ℝ,
        groupDist spC2 [0] (initGroups [0, 1]) b.1 b.2 = some db →
        groupDist spC2 [0] (initGroups [0, 1]) q.1 q.2 = some dq → db ≤ dq) ∧
      (∀ q ∈ lexPairs (initGroups [0, 1]).length, ∀ db dq : ℝ,
        groupDist spC2 [0] (initGroups [0, 1]) b.1 b.2 = some db →
        groupDist spC2 [0] (initGroups [0, 1]) q.1 q.2 = some dq → dq = db →
        ¬ lexLt q b) ∧
      mergeStepO spC2 [0] (initGroups [0, 1]) =
        some ((initGroups [0, 1]).take b.1 ++
          [(initGroups [0, 1]).getD b.1 [] ++ (initGroups [0, 1]).getD b.2 []] ++
          ((initGroups [0, 1]).drop (b.1 + 1)).take (b.2 - (b.1 + 1)) ++
          (initGroups [0, 1]).drop (b.2 + 1)) ∧
      clusterO spC2 [0] (initGroups [0, 1]) =
        clusterO spC2 [0]
          ((initGroups [0, 1]).take b.1 ++
            [(initGroups [0, 1]).getD b.1 [] ++ (initGroups [0, 1]).getD b.2 []] ++
            ((initGroups [0, 1]).drop (b.1 + 1)).take (b.2 - (b.1 + 1)) ++
            (initGroups [0, 1]).drop (b.2 + 1))) :=
  ⟨⟨by decide, by decide, by decide, by decide, by decide⟩,
   C2_agglomerative_order spC2 [0] [0, 1] (initGroups [0, 1])
     (by decide) (by decide) (by decide) (by decide) (by decide)⟩
